import Mathlib

/-!
Verification of `DistillationTests/DistilledMambaSentenceClassification.py`.

A batch of logits over `C` classes is a `List (Fin C → ℝ)` (one entry per
example).  Labels are a `List (Fin C)`.  Floating-point tensors are modelled
by exact real (or, for the purely arithmetic control paths, rational)
arithmetic.
-/

namespace Distill

/-- Softmax `F.softmax` along the class dimension: `exp zᵢ / ∑ⱼ exp zⱼ`. -/
noncomputable def softmaxR {C : ℕ} (z : Fin C → ℝ) : Fin C → ℝ :=
  fun i => Real.exp (z i) / ∑ j, Real.exp (z j)

/-- Log-softmax `F.log_softmax` along the class dimension: `zᵢ - log ∑ⱼ exp zⱼ`. -/
noncomputable def logSoftmaxR {C : ℕ} (z : Fin C → ℝ) : Fin C → ℝ :=
  fun i => z i - Real.log (∑ j, Real.exp (z j))

/-- Cross-entropy `F.cross_entropy(logits, labels)` with the default mean reduction:
mean over the batch of the negative log-softmax at the target label. -/
noncomputable def cross_entropy {C : ℕ} (logits : List (Fin C → ℝ))
    (labels : List (Fin C)) : ℝ :=
  let nll := List.zipWith (fun z y => -(logSoftmaxR z y)) logits labels
  nll.sum / nll.length

/-- The method `OptimizedDistillationTrainer.compute_loss`, transcribed statement by
statement from the source (temperature scaling, soft targets, student log
probabilities, soft loss, hard loss, final blend). -/
noncomputable def compute_loss {C : ℕ} (student_logits teacher_logits : List (Fin C → ℝ))
    (labels : List (Fin C)) (temperature alpha : ℝ) : ℝ :=
  let student_scaled := student_logits.map (fun z => fun i => z i / temperature)
  let teacher_scaled := teacher_logits.map (fun z => fun i => z i / temperature)
  let soft_targets := teacher_scaled.map softmaxR
  let student_log_probs := student_scaled.map logSoftmaxR
  let per_example := List.zipWith (fun p q => ∑ i, p i * q i) soft_targets student_log_probs
  let soft_loss := -(per_example.sum / per_example.length)
  let hard_loss := cross_entropy student_logits labels
  alpha * temperature ^ 2 * soft_loss + (1 - alpha) * hard_loss

/-- The spec's soft loss, assembled directly from its words:
`-mean(sum(softmax(teacher/T) * logSoftmax(student/T), over classes))`. -/
noncomputable def softLossSpec {C : ℕ} (student_logits teacher_logits : List (Fin C → ℝ))
    (T : ℝ) : ℝ :=
  let per_example := List.zipWith
    (fun zt zs => ∑ i, softmaxR (fun j => zt j / T) i * logSoftmaxR (fun j => zs j / T) i)
    teacher_logits student_logits
  Neg.neg (per_example.sum / per_example.length)

lemma compute_loss_blend {C : ℕ} (s t : List (Fin C → ℝ)) (labels : List (Fin C))
    (T alpha : ℝ) :
    compute_loss s t labels T alpha =
      alpha * T ^ 2 * softLossSpec s t T + (1 - alpha) * cross_entropy s labels := by
  unfold compute_loss softLossSpec
  simp [List.zipWith_map]

/-- Claim C1: `compute_loss` equals
`alpha * T^2 * softLoss + (1 - alpha) * hardLoss`, where the soft loss is the
mean soft-target cross-entropy of the temperature-scaled logits and the hard
loss is the plain cross-entropy of the unscaled student logits. -/
theorem compute_loss_eq_blend {C : ℕ} (s t : List (Fin C → ℝ)) (labels : List (Fin C))
    (T alpha : ℝ) :
    compute_loss s t labels T alpha =
      alpha * T ^ 2 * softLossSpec s t T + (1 - alpha) * cross_entropy s labels :=
  compute_loss_blend s t labels T alpha

/-- A 3-class, batch-size-2 batch of all-zero logits. -/
def zBatch : List (Fin 3 → ℝ) := [fun _ => 0, fun _ => 0]

/-- Labels for the toy 3-class, batch-size-2 example. -/
def cLabels : List (Fin 3) := [0, 1]

lemma sum_exp_zero3 : (∑ _j : Fin 3, Real.exp (0 : ℝ)) = 3 := by
  simp [Real.exp_zero]

lemma softLossSpec_zBatch : softLossSpec zBatch zBatch 2 = Real.log 3 := by
  unfold softLossSpec zBatch
  simp only [List.zipWith, List.sum_cons, List.sum_nil, List.length_cons, List.length_nil]
  have h0 : (fun j : Fin 3 => (0 : ℝ) / 2) = fun _ => (0 : ℝ) := by
    funext j; norm_num
  rw [h0]
  unfold softmaxR logSoftmaxR
  rw [sum_exp_zero3]
  simp only [Real.exp_zero, Fin.sum_univ_three]
  ring

/-- Counterexample to claim C2: at the default temperature 2.0, `compute_loss`
with `alpha = 1` is `4 ×` the direct soft-label cross-entropy, not equal to it:
on all-zero 3-class batch-size-2 logits the two sides are `4 log 3` and
`log 3`. -/
theorem compute_loss_alpha_one_ne_soft :
    compute_loss zBatch zBatch cLabels 2 1 ≠ softLossSpec zBatch zBatch 2 := by
  rw [compute_loss_blend, softLossSpec_zBatch]
  have h3 : 0 < Real.log 3 := Real.log_pos (by norm_num)
  intro h
  nlinarith [h]

/-- Claim C2 (amended): `compute_loss` with `alpha = 1` equals
`temperature² ×` the soft-label cross-entropy against the teacher (so it equals
the direct soft cross-entropy exactly when `temperature = 1`), and with
`alpha = 0` it equals the plain cross-entropy against the labels; both amended
equalities hold in particular on a 3-class, batch-size-2 input. -/
theorem compute_loss_alpha_extremes :
    (∀ (C : ℕ) (s t : List (Fin C → ℝ)) (l : List (Fin C)) (T : ℝ),
        compute_loss s t l T 1 = T ^ 2 * softLossSpec s t T) ∧
    (∀ (C : ℕ) (s t : List (Fin C → ℝ)) (l : List (Fin C)) (T : ℝ),
        compute_loss s t l T 0 = cross_entropy s l) ∧
    (∀ (C : ℕ) (s t : List (Fin C → ℝ)) (l : List (Fin C)),
        compute_loss s t l 1 1 = softLossSpec s t 1) ∧
    compute_loss zBatch zBatch cLabels 2 1 = 2 ^ 2 * softLossSpec zBatch zBatch 2 ∧
    compute_loss zBatch zBatch cLabels 2 0 = cross_entropy zBatch cLabels := by
  refine ⟨?_, ?_, ?_, ?_, ?_⟩ <;>
    first
      | (intro C s t l T; rw [compute_loss_blend]; ring)
      | (intro C s t l; rw [compute_loss_blend]; ring)
      | (rw [compute_loss_blend]; ring)

/-!
Parameter freezing and optimizer parameter groups.  A parameter tensor is
modelled as a pair of an identifier and its requires-grad flag; the base
model's ordered parameter list is a `List (ℕ × Bool)`.
-/

/-- The freezing loop of `MambaForSequenceClassification.__init__`:
`for param in list(base_model.parameters())[:(total_layers - 2)]:
param.requires_grad = False`.  The first `P - 2` entries of the ordered
parameter list get their flag cleared; the rest are untouched. -/
def freezeBase (ps : List (ℕ × Bool)) : List (ℕ × Bool) :=
  (ps.take (ps.length - 2)).map (fun p => (p.1, false)) ++ ps.drop (ps.length - 2)

lemma map_const_false (l : List (ℕ × Bool)) :
    l.map (fun p => Prod.snd (p.1, false)) = List.replicate l.length false := by
  induction l with
  | nil => rfl
  | cons a l ih => simp [ih, List.replicate_succ]

/-- Claim C3: after construction, exactly the first `P - 2` base-model
parameter tensors (by position in the ordered parameter list) have
requires-grad cleared and the last two keep it set, with the parameter
identifiers unchanged and in order. -/
theorem freezeBase_freezes (ps : List (ℕ × Bool))
    (hall : ∀ p ∈ ps, p.2 = true) (hlen : 2 ≤ ps.length) :
    (freezeBase ps).map Prod.snd =
        List.replicate (ps.length - 2) false ++ [true, true] ∧
    (freezeBase ps).map Prod.fst = ps.map Prod.fst := by
  constructor
  · unfold freezeBase
    rw [List.map_append, List.map_map]
    have h1 : (ps.take (ps.length - 2)).map
        (Prod.snd ∘ fun p => (p.1, false)) = List.replicate (ps.length - 2) false := by
      rw [show (Prod.snd ∘ fun p : ℕ × Bool => (p.1, false)) =
            fun p : ℕ × Bool => Prod.snd (p.1, false) from rfl]
      rw [map_const_false, List.length_take]
      congr 1
      omega
    have h2 : (ps.drop (ps.length - 2)).map Prod.snd = [true, true] := by
      have : (ps.drop (ps.length - 2)).map Prod.snd = List.replicate 2 true := by
        refine List.eq_replicate_iff.2 ⟨?_, ?_⟩
        · rw [List.length_map, List.length_drop]; omega
        · intro b hb
          rcases List.mem_map.1 hb with ⟨p, hp, rfl⟩
          exact hall p (List.drop_subset _ _ hp)
      rw [this]; rfl
    rw [h1, h2]
  · unfold freezeBase
    rw [List.map_append, List.map_map]
    rw [show (Prod.fst ∘ fun p : ℕ × Bool => (p.1, false)) =
          (Prod.fst : ℕ × Bool → ℕ) from rfl]
    rw [← List.map_append, List.take_append_drop]

/-- Witness for C3 on a concrete three-tensor base model. -/
theorem freezeBase_freezes_witness :
    (∀ p ∈ [((0 : ℕ), true), (1, true), (2, true)], p.2 = true) ∧
    2 ≤ [((0 : ℕ), true), (1, true), (2, true)].length ∧
    ((freezeBase [((0 : ℕ), true), (1, true), (2, true)]).map Prod.snd =
        List.replicate ([((0 : ℕ), true), (1, true), (2, true)].length - 2) false ++
          [true, true] ∧
     (freezeBase [((0 : ℕ), true), (1, true), (2, true)]).map Prod.fst =
        [((0 : ℕ), true), (1, true), (2, true)].map Prod.fst) :=
  ⟨by decide, by decide, freezeBase_freezes _ (by decide) (by decide)⟩

/-- The parameter lists of a constructed `MambaForSequenceClassification`:
the (frozen) base model plus the fresh projection and classifier layers. -/
structure MambaClassifierParams where
  mamba : List (ℕ × Bool)
  projection : List ℕ
  classifier : List ℕ

/-- Construction `MambaForSequenceClassification.__init__`, restricted to its parameter
bookkeeping: the base model's parameters pass through the freezing loop. -/
def mkClassifier (base : List (ℕ × Bool)) (proj cls : List ℕ) : MambaClassifierParams :=
  ⟨freezeBase base, proj, cls⟩

/-- One optimizer parameter group: member parameter ids and a learning rate. -/
structure ParamGroup where
  params : List ℕ
  lr : ℚ

/-- The two AdamW parameter groups built in `TeacherTrainer.__init__`:
classifier+projection parameters at `lr`, and
`list(model.mamba.parameters())[-2:]` at `lr * 0.1`. -/
def teacherParamGroups (m : MambaClassifierParams) (lr : ℚ) : List ParamGroup :=
  [⟨m.classifier ++ m.projection, lr⟩,
   ⟨(m.mamba.drop (m.mamba.length - 2)).map Prod.fst, lr * (1 / 10)⟩]

lemma freezeBase_length (ps : List (ℕ × Bool)) : (freezeBase ps).length = ps.length := by
  unfold freezeBase
  rw [List.length_append, List.length_map, List.length_take, List.length_drop]
  omega

lemma freezeBase_drop (ps : List (ℕ × Bool)) :
    (freezeBase ps).drop (ps.length - 2) = ps.drop (ps.length - 2) := by
  unfold freezeBase
  have hlen : ((ps.take (ps.length - 2)).map (fun p => (p.1, false))).length =
      ps.length - 2 := by
    rw [List.length_map, List.length_take]; omega
  have h := List.drop_left ((ps.take (ps.length - 2)).map (fun p => (p.1, false)))
    (ps.drop (ps.length - 2))
  rw [hlen] at h
  exact h

/-- Claim C7: the teacher optimizer has exactly two parameter groups — the
classifier and projection parameters at `lr`, and the last two base-model
parameter tensors at `lr * 0.1` — and every other base-model parameter is in
no group and has requires-grad cleared. -/
theorem teacherParamGroups_spec (base : List (ℕ × Bool)) (proj cls : List ℕ) (lr : ℚ)
    (hnd : (base.map Prod.fst).Nodup)
    (hdisj : ∀ pid ∈ base.map Prod.fst, pid ∉ proj ++ cls) :
    teacherParamGroups (mkClassifier base proj cls) lr =
      [⟨cls ++ proj, lr⟩,
       ⟨(base.map Prod.fst).drop (base.length - 2), lr * (1 / 10)⟩] ∧
    ∀ pid ∈ (base.map Prod.fst).take (base.length - 2),
      (∀ g ∈ teacherParamGroups (mkClassifier base proj cls) lr, pid ∉ g.params) ∧
      (∀ q ∈ (mkClassifier base proj cls).mamba, q.1 = pid → q.2 = false) := by
  have hgrp : teacherParamGroups (mkClassifier base proj cls) lr =
      [⟨cls ++ proj, lr⟩,
       ⟨(base.map Prod.fst).drop (base.length - 2), lr * (1 / 10)⟩] := by
    unfold teacherParamGroups mkClassifier
    simp only [freezeBase_length]
    rw [freezeBase_drop, List.map_drop]
  refine ⟨hgrp, ?_⟩
  intro pid hpid
  have hdj : List.Disjoint ((base.map Prod.fst).take (base.length - 2))
      ((base.map Prod.fst).drop (base.length - 2)) :=
    List.disjoint_take_drop hnd (le_refl _)
  have hmem : pid ∈ base.map Prod.fst := List.take_subset _ _ hpid
  constructor
  · intro g hg
    rw [hgrp] at hg
    rcases List.mem_cons.1 hg with rfl | hg
    · intro hin
      apply hdisj pid hmem
      rcases List.mem_append.1 hin with h | h
      · exact List.mem_append.2 (Or.inr h)
      · exact List.mem_append.2 (Or.inl h)
    · rcases List.mem_cons.1 hg with rfl | hg
      · intro hin
        exact hdj hpid hin
      · simp at hg
  · intro q hq hqid
    unfold mkClassifier freezeBase at hq
    rcases List.mem_append.1 hq with h | h
    · rcases List.mem_map.1 h with ⟨p, _, rfl⟩
      rfl
    · exfalso
      apply hdj hpid
      rw [← List.map_drop]
      rw [← hqid]
      exact List.mem_map_of_mem Prod.fst h

/-- Witness for C7 on a concrete four-tensor base model with one projection
and one classifier parameter. -/
theorem teacherParamGroups_spec_witness :
    (([((0 : ℕ), true), (1, true), (2, true), (3, true)].map Prod.fst).Nodup) ∧
    (∀ pid ∈ [((0 : ℕ), true), (1, true), (2, true), (3, true)].map Prod.fst,
        pid ∉ [10] ++ [11]) ∧
    (teacherParamGroups (mkClassifier [((0 : ℕ), true), (1, true), (2, true), (3, true)]
        [10] [11]) 1 =
      [⟨[11] ++ [10], 1⟩,
       ⟨(([((0 : ℕ), true), (1, true), (2, true), (3, true)].map Prod.fst).drop
          ([((0 : ℕ), true), (1, true), (2, true), (3, true)].length - 2)), 1 * (1 / 10)⟩] ∧
     ∀ pid ∈ ([((0 : ℕ), true), (1, true), (2, true), (3, true)].map Prod.fst).take
        ([((0 : ℕ), true), (1, true), (2, true), (3, true)].length - 2),
      (∀ g ∈ teacherParamGroups (mkClassifier
          [((0 : ℕ), true), (1, true), (2, true), (3, true)] [10] [11]) 1,
          pid ∉ g.params) ∧
      (∀ q ∈ (mkClassifier [((0 : ℕ), true), (1, true), (2, true), (3, true)]
          [10] [11]).mamba, q.1 = pid → q.2 = false)) :=
  ⟨by decide, by decide, teacherParamGroups_spec _ _ _ _ (by decide) (by decide)⟩

/-!
Teacher fine-tuning: early stopping.  An epoch is abstracted by its
evaluation accuracy (a rational); `teacherLoop` is the epoch-level control
flow of `TeacherTrainer.train`, emitting for each executed epoch the
early-stopping counter after the epoch and whether the epoch persisted
weights.
-/

/-- The epoch loop of `TeacherTrainer.train`: starting from `best` and
`counter`, consume per-epoch accuracies; on strict improvement reset the
counter to 0 and save, else increment; break once the counter reaches
`patience`.  Each executed epoch contributes `(counter after epoch, saved?)`. -/
def teacherLoop (patience : ℕ) (best : ℚ) (counter : ℕ) : List ℚ → List (ℕ × Bool)
  | [] => []
  | a :: rest =>
    let best' := if best < a then a else best
    let c' := if best < a then 0 else counter + 1
    (c', decide (best < a)) ::
      (if patience ≤ c' then [] else teacherLoop patience best' c' rest)

/-- The spec's counter recurrence, with no early exit: reset to 0 on any
strict improvement over the best so far, increment otherwise. -/
def specCounters (best : ℚ) (counter : ℕ) : List ℚ → List ℕ
  | [] => []
  | a :: rest =>
    (if best < a then 0 else counter + 1) ::
      specCounters (if best < a then a else best) (if best < a then 0 else counter + 1) rest

/-- The spec's persistence schedule: weights are saved exactly on the epochs
that strictly improve on the best accuracy so far. -/
def specSaves (best : ℚ) : List ℚ → List Bool
  | [] => []
  | a :: rest => decide (best < a) :: specSaves (if best < a then a else best) rest

/-- First epoch (1-based) at which the spec counter reaches `patience`, or the
number of epochs when it never does. -/
def stopFrom (patience : ℕ) (best : ℚ) (counter : ℕ) (accs : List ℚ) : ℕ :=
  match (specCounters best counter accs).findIdx? (fun c => patience ≤ c) with
  | some i => i + 1
  | none => accs.length

/-- Specialisation of `stopFrom` to the initial training state. -/
def stopEpochSpec (patience : ℕ) (accs : List ℚ) : ℕ :=
  stopFrom patience 0 0 accs

lemma stopFrom_cons (p : ℕ) (b : ℚ) (c : ℕ) (a : ℚ) (rest : List ℚ) :
    stopFrom p b c (a :: rest) =
      if p ≤ (if b < a then 0 else c + 1) then 1
      else stopFrom p (if b < a then a else b) (if b < a then 0 else c + 1) rest + 1 := by
  have hsc : specCounters b c (a :: rest) =
      (if b < a then 0 else c + 1) ::
        specCounters (if b < a then a else b) (if b < a then 0 else c + 1) rest := rfl
  unfold stopFrom
  rw [hsc, List.findIdx?_cons]
  by_cases h : p ≤ (if b < a then 0 else c + 1)
  · simp [h]
  · cases hfind : (specCounters (if b < a then a else b)
        (if b < a then 0 else c + 1) rest).findIdx? (fun x => p ≤ x) with
    | none => simp [h, hfind]
    | some i => simp [h, hfind]

lemma teacherLoop_trace (p : ℕ) (accs : List ℚ) : ∀ (b : ℚ) (c : ℕ),
    teacherLoop p b c accs =
      ((specCounters b c accs).zip (specSaves b accs)).take (stopFrom p b c accs) := by
  induction accs with
  | nil => intro b c; rfl
  | cons a rest ih =>
    intro b c
    rw [stopFrom_cons]
    show (_, _) :: _ = (((if b < a then 0 else c + 1) :: _).zip (decide (b < a) :: _)).take _
    rw [List.zip_cons_cons]
    by_cases h : p ≤ (if b < a then 0 else c + 1)
    · rw [if_pos h, if_pos h, List.take_succ_cons, List.take_zero]
    · rw [if_neg h, if_neg h, List.take_succ_cons, ih]

lemma teacherLoop_stop_length (p : ℕ) (accs : List ℚ) : ∀ (b : ℚ) (c : ℕ),
    (teacherLoop p b c accs).length = stopFrom p b c accs := by
  induction accs with
  | nil => intro b c; rfl
  | cons a rest ih =>
    intro b c
    rw [stopFrom_cons]
    show ((_, _) :: _).length = _
    rw [List.length_cons]
    by_cases h : p ≤ (if b < a then 0 else c + 1)
    · rw [if_pos h, if_pos h, List.length_nil]
    · rw [if_neg h, if_neg h, ih]

/-- Claim C4: the teacher loop's per-epoch counter/save trace follows the
spec recurrence (reset to 0 and persist on strict improvement, increment
otherwise) and the loop runs exactly until the first epoch whose counter
reaches `patience = 3` (or until the accuracies are exhausted); on the
accuracy sequence `[0.5, 0.6, 0.55, 0.55, 0.55]` it stops after epoch 5,
and a sixth epoch would not run. -/
theorem teacherTrain_earlyStopping :
    (∀ accs : List ℚ,
        teacherLoop 3 0 0 accs =
          ((specCounters 0 0 accs).zip (specSaves 0 accs)).take (stopEpochSpec 3 accs)) ∧
    (∀ accs : List ℚ, (teacherLoop 3 0 0 accs).length = stopEpochSpec 3 accs) ∧
    teacherLoop 3 0 0 [1/2, 3/5, 11/20, 11/20, 11/20] =
      [(0, true), (0, true), (1, false), (2, false), (3, false)] ∧
    stopEpochSpec 3 [1/2, 3/5, 11/20, 11/20, 11/20] = 5 ∧
    stopEpochSpec 3 [1/2, 3/5, 11/20, 11/20, 11/20, 9/10] = 5 := by
  refine ⟨fun accs => teacherLoop_trace 3 accs 0 0,
          fun accs => teacherLoop_stop_length 3 accs 0 0, ?_, ?_, ?_⟩
  · norm_num [teacherLoop]
  · norm_num [stopEpochSpec, stopFrom, specCounters, List.findIdx?_cons, List.findIdx?_nil]
  · norm_num [stopEpochSpec, stopFrom, specCounters, List.findIdx?_cons, List.findIdx?_nil]

/-!
Mean pooling in `MambaForSequenceClassification.forward`.  A sequence of
hidden states is a `List (Fin V → α)` (one vector per position); the
attention mask is a `List α` of the same length.  The pooling arithmetic is
stated over an arbitrary linear ordered field so that it covers both the real
model of the forward pass and exact rational evaluation.
-/

/-- Attention-mask-weighted mean pooling from `forward`:
`(hidden_states * mask_expanded).sum(dim=1) /
mask_expanded.sum(dim=1).clamp(min=1e-9)`. -/
def meanPool {α : Type} [LinearOrderedField α] {V : ℕ}
    (mask : List α) (hs : List (Fin V → α)) : Fin V → α :=
  fun v => (List.zipWith (fun h m => h v * m) hs mask).sum /
    max mask.sum ((1 : α) / 1000000000)

/-- The spec's description of the pooled value: the sum of the hidden states
at mask-1 positions divided by the number of mask-1 positions, the
denominator clamped below at `1e-9`. -/
def specPool {α : Type} [LinearOrderedField α] {V : ℕ}
    (mask : List α) (hs : List (Fin V → α)) : Fin V → α :=
  fun v => (List.zipWith (fun h m => if m = 1 then h v else 0) hs mask).sum /
    max (((mask.filter (fun m => m = 1)).length : α)) ((1 : α) / 1000000000)

lemma masked_num_eq {α : Type} [LinearOrderedField α] {V : ℕ} (v : Fin V) :
    ∀ (hs : List (Fin V → α)) (mask : List α), (∀ m ∈ mask, m = 0 ∨ m = 1) →
      (List.zipWith (fun h m => h v * m) hs mask).sum =
        (List.zipWith (fun h m => if m = 1 then h v else 0) hs mask).sum := by
  intro hs
  induction hs with
  | nil => intro mask _; rfl
  | cons h rest ih =>
    intro mask hbin
    cases mask with
    | nil => rfl
    | cons m ms =>
      rw [List.zipWith_cons_cons, List.zipWith_cons_cons, List.sum_cons, List.sum_cons,
        ih ms (fun x hx => hbin x (List.mem_cons_of_mem m hx))]
      rcases hbin m (List.mem_cons_self m ms) with rfl | rfl
      · rw [if_neg (by exact fun hc => zero_ne_one hc), mul_zero]
      · rw [if_pos rfl, mul_one]

lemma mask_sum_eq_count {α : Type} [LinearOrderedField α] :
    ∀ (mask : List α), (∀ m ∈ mask, m = 0 ∨ m = 1) →
      mask.sum = ((mask.filter (fun m => m = 1)).length : α) := by
  intro mask
  induction mask with
  | nil => intro _; simp
  | cons m ms ih =>
    intro hbin
    rw [List.sum_cons, ih (fun x hx => hbin x (List.mem_cons_of_mem m hx))]
    rcases hbin m (List.mem_cons_self m ms) with rfl | rfl
    · rw [List.filter_cons_of_neg (by simp), zero_add]
    · rw [List.filter_cons_of_pos (by simp), List.length_cons, Nat.cast_succ, add_comm]

lemma masked_num_agree {α : Type} [LinearOrderedField α] {V : ℕ} (v : Fin V) :
    ∀ (hs₁ hs₂ : List (Fin V → α)) (mask : List α), hs₁.length = hs₂.length →
      (∀ m ∈ mask, m = 0 ∨ m = 1) →
      (∀ p ∈ (hs₁.zip hs₂).zip mask, p.2 = 1 → p.1.1 = p.1.2) →
      (List.zipWith (fun h m => h v * m) hs₁ mask).sum =
        (List.zipWith (fun h m => h v * m) hs₂ mask).sum := by
  intro hs₁
  induction hs₁ with
  | nil =>
    intro hs₂ mask hlen _ _
    cases hs₂ with
    | nil => rfl
    | cons h₂ rest₂ => simp at hlen
  | cons h₁ rest₁ ih =>
    intro hs₂ mask hlen hbin hagree
    cases hs₂ with
    | nil => simp at hlen
    | cons h₂ rest₂ =>
      cases mask with
      | nil => rfl
      | cons m ms =>
        rw [List.zipWith_cons_cons, List.zipWith_cons_cons, List.sum_cons, List.sum_cons]
        have htail := ih rest₂ ms (by simpa using hlen)
          (fun x hx => hbin x (List.mem_cons_of_mem m hx))
          (fun p hp => hagree p (by
            rw [List.zip_cons_cons, List.zip_cons_cons]
            exact List.mem_cons_of_mem _ hp))
        rw [htail]
        rcases hbin m (List.mem_cons_self m ms) with rfl | rfl
        · rw [mul_zero, mul_zero]
        · have hh : h₁ = h₂ := hagree ((h₁, h₂), 1) (by
            rw [List.zip_cons_cons, List.zip_cons_cons]
            exact List.mem_cons_self _ _) rfl
          rw [hh]

/-- Claim C5: with a 0/1 attention mask, masked mean pooling gives the same
pooled output on any two hidden-state sequences that agree at every mask-1
position (mask-0 positions have zero weight), and the pooled value is the sum
over the mask-1 positions divided by the count of mask-1 positions, the
denominator clamped below at `1e-9`. -/
theorem meanPool_padding_invariant {α : Type} [LinearOrderedField α] {V : ℕ}
    (mask : List α) (hs₁ hs₂ : List (Fin V → α))
    (hlen : hs₁.length = hs₂.length)
    (hbin : ∀ m ∈ mask, m = 0 ∨ m = 1)
    (hagree : ∀ p ∈ (hs₁.zip hs₂).zip mask, p.2 = 1 → p.1.1 = p.1.2) :
    meanPool mask hs₁ = meanPool mask hs₂ ∧
    meanPool mask hs₁ = specPool mask hs₁ := by
  constructor
  · funext v
    unfold meanPool
    rw [masked_num_agree v hs₁ hs₂ mask hlen hbin hagree]
  · funext v
    unfold meanPool specPool
    rw [masked_num_eq v hs₁ mask hbin, mask_sum_eq_count mask hbin]

/-- Witness for C5: a concrete length-2 sequence over `ℚ` whose padding
position (mask 0) differs between the two hidden-state sequences. -/
theorem meanPool_padding_invariant_witness :
    ([fun _ => 5, fun _ => 7] : List (Fin 1 → ℚ)).length =
      ([fun _ => 5, fun _ => 9] : List (Fin 1 → ℚ)).length ∧
    (∀ m ∈ [(1 : ℚ), 0], m = 0 ∨ m = 1) ∧
    (∀ p ∈ (([fun _ => 5, fun _ => 7] : List (Fin 1 → ℚ)).zip
        ([fun _ => 5, fun _ => 9] : List (Fin 1 → ℚ))).zip [(1 : ℚ), 0],
      p.2 = 1 → p.1.1 = p.1.2) ∧
    (meanPool [(1 : ℚ), 0] ([fun _ => 5, fun _ => 7] : List (Fin 1 → ℚ)) =
        meanPool [(1 : ℚ), 0] ([fun _ => 5, fun _ => 9] : List (Fin 1 → ℚ)) ∧
     meanPool [(1 : ℚ), 0] ([fun _ => 5, fun _ => 7] : List (Fin 1 → ℚ)) =
        specPool [(1 : ℚ), 0] ([fun _ => 5, fun _ => 7] : List (Fin 1 → ℚ))) :=
  ⟨rfl, by decide, by decide, meanPool_padding_invariant _ _ _ rfl (by decide) (by decide)⟩

/-!
The method `MambaForSequenceClassification.forward` (mean pooling mode, the default used
by both the teacher and the student).  The base model's output
(`outputs.logits`, one vocabulary-sized vector per position per example), the
projection layer and the classifier head are parameters of the embedding;
`forward` contributes the pooling, the projection/classification composition
and the optional loss.
-/

/-- The ad-hoc `{loss, logits}` result object returned by `forward`. -/
structure SeqClassifierOutput (C : ℕ) where
  loss : Option ℝ
  logits : List (Fin C → ℝ)

/-- The method `MambaForSequenceClassification.forward` with mean pooling:
pool the per-position base-model outputs (mask-weighted mean when an
attention mask is given, plain mean otherwise), project, classify, and
compute the cross-entropy loss only when labels are supplied. -/
noncomputable def forward {V H C : ℕ} (proj : (Fin V → ℝ) → Fin H → ℝ)
    (clf : (Fin H → ℝ) → Fin C → ℝ)
    (hidden : List (List (Fin V → ℝ)))
    (attention_mask : Option (List (List ℝ)))
    (labels : Option (List (Fin C))) : SeqClassifierOutput C :=
  let pooled : List (Fin V → ℝ) :=
    match attention_mask with
    | some masks => List.zipWith (fun hs m => meanPool m hs) hidden masks
    | none => hidden.map (fun hs => fun v => (hs.map (fun h => h v)).sum / hs.length)
  let logits := pooled.map (fun q => clf (proj q))
  { loss := labels.map (fun ls => cross_entropy logits ls), logits := logits }

/-- Claim C9: `forward` returns a `none` loss exactly when no labels are
passed; with labels the loss is the cross-entropy of the logits against them,
and the logits themselves do not depend on the labels. -/
theorem forward_loss_iff_labels {V H C : ℕ}
    (proj : (Fin V → ℝ) → Fin H → ℝ) (clf : (Fin H → ℝ) → Fin C → ℝ)
    (hidden : List (List (Fin V → ℝ))) (mask : Option (List (List ℝ))) :
    (forward proj clf hidden mask (none : Option (List (Fin C)))).loss = none ∧
    (∀ ls : List (Fin C),
      (forward proj clf hidden mask (some ls)).loss =
        some (cross_entropy (forward proj clf hidden mask none).logits ls) ∧
      (forward proj clf hidden mask (some ls)).logits =
        (forward proj clf hidden mask none).logits) ∧
    (∀ labels : Option (List (Fin C)),
      ((forward proj clf hidden mask labels).loss = none ↔ labels = none)) := by
  refine ⟨rfl, fun ls => ⟨rfl, rfl⟩, fun labels => ?_⟩
  cases labels <;> simp [forward]

/-!
The gradient-accumulation step structure of
`OptimizedDistillationTrainer.train`.  The toy student model has two scalar
parameters (`ℚ × ℚ`).  Each batch is abstracted by the gradient vector of its
(undivided) loss; dividing the loss by `gradient_accumulation_steps` before
`backward` scales that gradient by `1/N` (linearity of differentiation), and
`backward` adds it to the accumulated gradient buffer.  The combined
clip/optimizer-step/scheduler-step action is an opaque update function `U` of
the current parameters and the accumulated gradient; `optimizer.zero_grad()`
resets the buffer.  `updSteps` instruments the 1-based step indices at which
an update fired. -/
structure DistillState where
  params : ℚ × ℚ
  grad : ℚ × ℚ
  updSteps : List ℕ

/-- One iteration of the inner batch loop of
`OptimizedDistillationTrainer.train` at 0-based step index `idx`:
`loss.backward()` accumulates the `1/N`-scaled gradient; then, only when
`(step + 1) % N == 0`: clip, `optimizer.step()`, `scheduler.step()`,
`optimizer.zero_grad()`. -/
def distillStep (U : ℚ × ℚ → ℚ × ℚ → ℚ × ℚ) (N : ℕ) (idx : ℕ)
    (st : DistillState) (g : ℚ × ℚ) : DistillState :=
  let acc := st.grad + (1 / (N : ℚ)) • g
  if (idx + 1) % N = 0 then
    ⟨U st.params acc, 0, st.updSteps ++ [idx + 1]⟩
  else
    ⟨st.params, acc, st.updSteps⟩

/-- The batch loop from a given step index. -/
def runEpochFrom (U : ℚ × ℚ → ℚ × ℚ → ℚ × ℚ) (N : ℕ) :
    ℕ → DistillState → List (ℚ × ℚ) → DistillState
  | _, st, [] => st
  | idx, st, g :: gs => runEpochFrom U N (idx + 1) (distillStep U N idx st g) gs

/-- One epoch of the distillation loop: `enumerate` restarts the step index
at 0, while parameters and the gradient buffer persist. -/
def runEpoch (U : ℚ × ℚ → ℚ × ℚ → ℚ × ℚ) (N : ℕ)
    (st : DistillState) (gs : List (ℚ × ℚ)) : DistillState :=
  runEpochFrom U N 0 st gs

/-- The epoch loop of `OptimizedDistillationTrainer.train`: state (including
any un-zeroed accumulated gradient) carries from epoch to epoch. -/
def distillTrain (U : ℚ × ℚ → ℚ × ℚ → ℚ × ℚ) (N : ℕ)
    (st : DistillState) (epochs : List (List (ℚ × ℚ))) : DistillState :=
  epochs.foldl (runEpoch U N) st

lemma runEpochFrom_append (U : ℚ × ℚ → ℚ × ℚ → ℚ × ℚ) (N : ℕ) :
    ∀ (l₁ l₂ : List (ℚ × ℚ)) (s : ℕ) (st : DistillState),
      runEpochFrom U N s st (l₁ ++ l₂) =
        runEpochFrom U N (s + l₁.length) (runEpochFrom U N s st l₁) l₂ := by
  intro l₁
  induction l₁ with
  | nil => intro l₂ s st; simp [runEpochFrom]
  | cons g gs ih =>
    intro l₂ s st
    show runEpochFrom U N (s + 1) _ (gs ++ l₂) = _
    rw [ih]
    show _ = runEpochFrom U N (s + (gs.length + 1)) _ l₂
    congr 1
    omega

lemma runEpochFrom_no_update (U : ℚ × ℚ → ℚ × ℚ → ℚ × ℚ) (N : ℕ) :
    ∀ (gs : List (ℚ × ℚ)) (s : ℕ) (st : DistillState),
      (∀ k < gs.length, (s + k + 1) % N ≠ 0) →
      runEpochFrom U N s st gs =
        ⟨st.params, st.grad + (1 / (N : ℚ)) • gs.sum, st.updSteps⟩ := by
  intro gs
  induction gs with
  | nil => intro s st _; simp [runEpochFrom, smul_zero]
  | cons g rest ih =>
    intro s st hno
    have h0 : (s + 1) % N ≠ 0 := by
      have := hno 0 (Nat.succ_pos _)
      simpa using this
    have hstep : distillStep U N s st g =
        ⟨st.params, st.grad + (1 / (N : ℚ)) • g, st.updSteps⟩ := by
      simp only [distillStep]
      rw [if_neg h0]
    show runEpochFrom U N (s + 1) (distillStep U N s st g) rest = _
    rw [hstep, ih (s + 1) _ (fun k hk => by
      have := hno (k + 1) (by simpa using Nat.succ_lt_succ hk)
      have he : s + (k + 1) + 1 = s + 1 + k + 1 := by omega
      rw [he] at this
      exact this)]
    show DistillState.mk _ _ _ = DistillState.mk _ _ _
    rw [List.sum_cons, smul_add, ← add_assoc]

lemma runEpochFrom_chunk (U : ℚ × ℚ → ℚ × ℚ → ℚ × ℚ) (N : ℕ) (h1 : 1 ≤ N)
    (gs : List (ℚ × ℚ)) (s : ℕ) (st : DistillState)
    (hlen : gs.length = N) (hs : s % N = 0) :
    runEpochFrom U N s st gs =
      ⟨U st.params (st.grad + (1 / (N : ℚ)) • gs.sum), 0,
        st.updSteps ++ [s + N]⟩ := by
  have hsplit : gs = gs.take (N - 1) ++ gs.drop (N - 1) := (List.take_append_drop _ _).symm
  rcases hdrop : gs.drop (N - 1) with _ | ⟨glast, grest⟩
  · exfalso
    have := congrArg List.length hdrop
    rw [List.length_drop, hlen] at this
    simp at this
    omega
  · have hrest : grest = [] := by
      have := congrArg List.length hdrop
      rw [List.length_drop, hlen] at this
      simp at this
      cases grest with
      | nil => rfl
      | cons a b => simp at this; omega
    subst hrest
    have htake : (gs.take (N - 1)).length = N - 1 := by
      rw [List.length_take, hlen]; omega
    conv_lhs => rw [hsplit, hdrop]
    rw [runEpochFrom_append, runEpochFrom_no_update U N _ s st (fun k hk => by
      rw [htake] at hk
      have hk1 : 0 < k + 1 ∧ k + 1 < N := by omega
      rw [Nat.add_assoc, Nat.add_mod, hs, Nat.zero_add, Nat.mod_mod_of_dvd]
      · rw [Nat.mod_eq_of_lt hk1.2]
        omega
      · exact dvd_refl N)]
    rw [htake]
    have he : s + (N - 1) + 1 = s + N := by omega
    have hfire : (s + (N - 1) + 1) % N = 0 := by
      rw [he, Nat.add_mod, hs, Nat.zero_add, Nat.mod_mod_of_dvd _ (dvd_refl N),
        Nat.mod_self]
    have hstep : ∀ st' : DistillState, distillStep U N (s + (N - 1)) st' glast =
        ⟨U st'.params (st'.grad + (1 / (N : ℚ)) • glast), 0,
          st'.updSteps ++ [s + N]⟩ := by
      intro st'
      simp only [distillStep]
      rw [if_pos hfire, he]
    show runEpochFrom U N (s + (N - 1) + 1) (distillStep U N (s + (N - 1)) _ glast) [] = _
    rw [hstep]
    show DistillState.mk _ _ _ = DistillState.mk _ _ _
    conv_rhs => rw [hsplit, hdrop]
    rw [List.sum_append, List.sum_cons, List.sum_nil, add_zero, smul_add, add_assoc]

lemma filter_first_chunk (s N : ℕ) (h1 : 1 ≤ N) (hs : s % N = 0) :
    ((List.range N).map (fun k => s + k + 1)).filter (fun k => k % N = 0) = [s + N] := by
  obtain ⟨M, rfl⟩ : ∃ M, N = M + 1 := ⟨N - 1, by omega⟩
  rw [List.range_succ, List.map_append, List.filter_append]
  have hnil : ((List.range M).map (fun k => s + k + 1)).filter
      (fun k => k % (M + 1) = 0) = [] := by
    refine List.filter_eq_nil_iff.2 ?_
    intro a ha
    rcases List.mem_map.1 ha with ⟨k, hk, rfl⟩
    have hkM : k < M := List.mem_range.1 hk
    have : (s + k + 1) % (M + 1) = k + 1 := by
      rw [Nat.add_assoc, Nat.add_mod, hs, Nat.zero_add,
        Nat.mod_mod_of_dvd _ (dvd_refl _), Nat.mod_eq_of_lt (by omega)]
    simp [this]
  have hone : ([s + M + 1].filter (fun k => k % (M + 1) = 0)) = [s + M + 1] := by
    have : (s + M + 1) % (M + 1) = 0 := by
      rw [Nat.add_assoc, Nat.add_mod, hs, Nat.zero_add,
        Nat.mod_mod_of_dvd _ (dvd_refl _), Nat.mod_self]
    simp [this]
  rw [hnil]
  simp only [List.map_cons, List.map_nil]
  rw [hone, List.nil_append]
  rw [show s + M + 1 = s + (M + 1) from by omega]

lemma runEpochFrom_spec (U : ℚ × ℚ → ℚ × ℚ → ℚ × ℚ) (N : ℕ) (h1 : 1 ≤ N) :
    ∀ (n : ℕ) (gs : List (ℚ × ℚ)), gs.length = n →
      ∀ (s : ℕ) (st : DistillState), s % N = 0 →
      (runEpochFrom U N s st gs).updSteps =
        st.updSteps ++
          ((List.range n).map (fun k => s + k + 1)).filter (fun k => k % N = 0) ∧
      (runEpochFrom U N s st gs).grad =
        (if n < N then st.grad else 0) +
          (1 / (N : ℚ)) • (gs.drop (N * (n / N))).sum := by
  intro n
  induction n using Nat.strong_induction_on with
  | _ n ih =>
    intro gs hlen s st hs
    by_cases hn : n < N
    · have hmod : ∀ k < gs.length, (s + k + 1) % N ≠ 0 := by
        intro k hk
        rw [hlen] at hk
        rw [Nat.add_assoc, Nat.add_mod, hs, Nat.zero_add,
          Nat.mod_mod_of_dvd _ (dvd_refl _), Nat.mod_eq_of_lt (by omega)]
        omega
      rw [runEpochFrom_no_update U N gs s st hmod]
      refine ⟨?_, ?_⟩
      · have hnil : ((List.range n).map (fun k => s + k + 1)).filter
            (fun k => k % N = 0) = [] := by
          refine List.filter_eq_nil_iff.2 ?_
          intro a ha
          rcases List.mem_map.1 ha with ⟨k, hk, rfl⟩
          have := hmod k (by rw [hlen]; exact List.mem_range.1 hk)
          simpa using this
        rw [hnil, List.append_nil]
      · rw [if_pos hn, Nat.div_eq_of_lt hn, Nat.mul_zero, List.drop_zero]
    · have hNn : N ≤ n := by omega
      have hsplit : gs = gs.take N ++ gs.drop N := (List.take_append_drop _ _).symm
      have htake : (gs.take N).length = N := by
        rw [List.length_take, hlen]; omega
      have hdroplen : (gs.drop N).length = n - N := by
        rw [List.length_drop, hlen]
      have hrun : runEpochFrom U N s st gs =
          runEpochFrom U N (s + N)
            ⟨U st.params (st.grad + (1 / (N : ℚ)) • (gs.take N).sum), 0,
              st.updSteps ++ [s + N]⟩ (gs.drop N) := by
        conv_lhs => rw [hsplit]
        rw [runEpochFrom_append, htake,
          runEpochFrom_chunk U N h1 _ s st htake hs]
      have hs' : (s + N) % N = 0 := by
        rw [Nat.add_mod, hs, Nat.zero_add, Nat.mod_mod_of_dvd _ (dvd_refl _),
          Nat.mod_self]
      have hrec := ih (n - N) (by omega) (gs.drop N) hdroplen (s + N)
        ⟨U st.params (st.grad + (1 / (N : ℚ)) • (gs.take N).sum), 0,
          st.updSteps ++ [s + N]⟩ hs'
      refine ⟨?_, ?_⟩
      · rw [hrun, hrec.1]
        show (st.updSteps ++ [s + N]) ++ _ = _
        rw [List.append_assoc]
        congr 1
        have hrange : List.range n = List.range N ++ (List.range (n - N)).map (N + ·) := by
          rw [← List.range_add, show N + (n - N) = n from by omega]
        have hfun : ((fun k => s + k + 1) ∘ fun x => N + x) =
            (fun k : ℕ => s + N + k + 1) := by
          funext k
          simp only [Function.comp_apply]
          omega
        rw [hrange, List.map_append, List.filter_append, filter_first_chunk s N h1 hs,
          List.map_map, hfun]
      · rw [hrun, hrec.2]
        show _ = (if n < N then st.grad else 0) + _
        rw [if_neg hn]
        have hz : (if n - N < N then
            (DistillState.mk (U st.params (st.grad + (1 / (N : ℚ)) • (gs.take N).sum)) 0
              (st.updSteps ++ [s + N])).grad else 0) = 0 := by
          split <;> rfl
        rw [hz, zero_add, zero_add, List.drop_drop]
        have hdiv : n / N = (n - N) / N + 1 := Nat.div_eq_sub_div (by omega) hNn
        rw [show N + N * ((n - N) / N) = N * (n / N) from by rw [hdiv]; ring]

/-- Claim C6: accumulating the `1/N`-scaled gradients of per-step losses
`L₁ … L_N` over one epoch of exactly `N ≤ 4` batches, with the update fired
only on the `N`-th step, performs a single optimizer update on the gradient
of `mean(Lᵢ)` — `U` applied to `(1/N) · Σ gᵢ` — and leaves the gradient
buffer zeroed. -/
theorem gradAccum_equiv_mean_step (U : ℚ × ℚ → ℚ × ℚ → ℚ × ℚ) (p : ℚ × ℚ)
    (N : ℕ) (gs : List (ℚ × ℚ)) (h1 : 1 ≤ N) (h4 : N ≤ 4) (hlen : gs.length = N) :
    (runEpoch U N ⟨p, 0, []⟩ gs).params = U p ((1 / (N : ℚ)) • gs.sum) ∧
    (runEpoch U N ⟨p, 0, []⟩ gs).grad = 0 := by
  unfold runEpoch
  rw [runEpochFrom_chunk U N h1 gs 0 ⟨p, 0, []⟩ hlen (Nat.zero_mod N)]
  exact ⟨by rw [show (0 : ℚ × ℚ) + (1 / (N : ℚ)) • gs.sum =
    (1 / (N : ℚ)) • gs.sum from zero_add _], rfl⟩

/-- Witness for C6: two accumulation steps with `U` a plain gradient-descent
update on a two-parameter model. -/
theorem gradAccum_equiv_mean_step_witness :
    1 ≤ 2 ∧ 2 ≤ 4 ∧
    ([((1 : ℚ), (0 : ℚ)), ((0 : ℚ), (1 : ℚ))]).length = 2 ∧
    ((runEpoch (fun q g => q - g) 2 ⟨(0, 0), 0, []⟩
        [((1 : ℚ), (0 : ℚ)), ((0 : ℚ), (1 : ℚ))]).params =
      (fun q g => q - g) ((0 : ℚ), (0 : ℚ))
        ((1 / (2 : ℚ)) • ([((1 : ℚ), (0 : ℚ)), ((0 : ℚ), (1 : ℚ))]).sum) ∧
     (runEpoch (fun q g => q - g) 2 ⟨(0, 0), 0, []⟩
        [((1 : ℚ), (0 : ℚ)), ((0 : ℚ), (1 : ℚ))]).grad = 0) :=
  ⟨by omega, by omega, rfl,
    gradAccum_equiv_mean_step (fun q g => q - g) (0, 0) 2 _ (by omega) (by omega) rfl⟩

/-- Claim C10: over one epoch the distillation loop fires its
clip/step/scheduler/zero block exactly at the 1-based step indices that are
multiples of `N`; the trailing `B mod N` batches trigger no update and their
accumulated (not-zeroed) gradient survives the epoch, so it flows into the
next epoch's first update — demonstrated concretely on a 1-batch epoch
followed by a 2-batch epoch with `N = 2`. -/
theorem distillTrain_update_frame (U : ℚ × ℚ → ℚ × ℚ → ℚ × ℚ) (N : ℕ)
    (p g0 : ℚ × ℚ) (gs : List (ℚ × ℚ)) (h1 : 1 ≤ N) :
    (runEpoch U N ⟨p, g0, []⟩ gs).updSteps =
      ((List.range gs.length).map (fun k => k + 1)).filter (fun k => k % N = 0) ∧
    (runEpoch U N ⟨p, g0, []⟩ gs).grad =
      (if gs.length < N then g0 else 0) +
        (1 / (N : ℚ)) • (gs.drop (N * (gs.length / N))).sum ∧
    (distillTrain (fun q g => q - g) 2 ⟨(0, 0), 0, []⟩
        [[((2 : ℚ), (0 : ℚ))], [((0 : ℚ), (2 : ℚ)), ((4 : ℚ), (4 : ℚ))]]).params =
      ((-3 : ℚ), (-3 : ℚ)) := by
  have h := runEpochFrom_spec U N h1 gs.length gs rfl 0 ⟨p, g0, []⟩ (Nat.zero_mod N)
  refine ⟨?_, h.2, ?_⟩
  · have h1' := h.1
    rw [show ((fun k => 0 + k + 1) : ℕ → ℕ) = fun k => k + 1 from by
      funext k; omega] at h1'
    rw [runEpoch, h1']
    rfl
  · simp only [distillTrain, List.foldl_cons, List.foldl_nil, runEpoch, runEpochFrom,
      distillStep]
    norm_num [Prod.smul_mk, smul_eq_mul, Prod.mk_add_mk, Prod.mk_sub_mk,
      Prod.mk.injEq, Prod.ext_iff]

/-- Witness for C10: a three-batch epoch with `N = 2` updates only at step 2
and leaves the third batch's gradient in the buffer. -/
theorem distillTrain_update_frame_witness :
    1 ≤ 2 ∧
    ((runEpoch (fun q g => q - g) 2 ⟨(0, 0), 0, []⟩
        [((1 : ℚ), (0 : ℚ)), ((0 : ℚ), (1 : ℚ)), ((5 : ℚ), (5 : ℚ))]).updSteps =
      ((List.range ([((1 : ℚ), (0 : ℚ)), ((0 : ℚ), (1 : ℚ)),
          ((5 : ℚ), (5 : ℚ))]).length).map (fun k => k + 1)).filter
        (fun k => k % 2 = 0) ∧
     (runEpoch (fun q g => q - g) 2 ⟨(0, 0), 0, []⟩
        [((1 : ℚ), (0 : ℚ)), ((0 : ℚ), (1 : ℚ)), ((5 : ℚ), (5 : ℚ))]).grad =
      (if ([((1 : ℚ), (0 : ℚ)), ((0 : ℚ), (1 : ℚ)), ((5 : ℚ), (5 : ℚ))]).length < 2
        then (0 : ℚ × ℚ) else 0) +
        (1 / (2 : ℚ)) • (([((1 : ℚ), (0 : ℚ)), ((0 : ℚ), (1 : ℚ)),
          ((5 : ℚ), (5 : ℚ))]).drop
            (2 * (([((1 : ℚ), (0 : ℚ)), ((0 : ℚ), (1 : ℚ)),
              ((5 : ℚ), (5 : ℚ))]).length / 2))).sum ∧
     (distillTrain (fun q g => q - g) 2 ⟨(0, 0), 0, []⟩
        [[((2 : ℚ), (0 : ℚ))], [((0 : ℚ), (2 : ℚ)), ((4 : ℚ), (4 : ℚ))]]).params =
      ((-3 : ℚ), (-3 : ℚ))) :=
  ⟨by omega, distillTrain_update_frame (fun q g => q - g) 2 (0, 0) 0 _ (by omega)⟩

/-!
The method `OptimizedDistillationTrainer.evaluate`: per-class prediction counts and
their percentages.  Note that the source method reads `self.num_labels`,
which `OptimizedDistillationTrainer.__init__` never assigns (the evident
intent is the model's label count); the class count is a parameter `n + 1`
here.
-/

/-- Argmax `logits.argmax(dim=-1)` for one example: the index of the first maximal
entry of the class-dimension vector. -/
def argmaxIdx {n : ℕ} (z : Fin (n + 1) → ℚ) : Fin (n + 1) :=
  (List.finRange (n + 1)).foldl (fun best i => if z best < z i then i else best) 0

/-- The prediction list accumulated by `evaluate`: one `argmax` per example. -/
def evalPreds {n : ℕ} (logits : List (Fin (n + 1) → ℚ)) : List (Fin (n + 1)) :=
  logits.map argmaxIdx

/-- Count `label_counts[c]`: how many evaluated examples were predicted as class
`c`. -/
def labelCounts {n : ℕ} (preds : List (Fin (n + 1))) (c : Fin (n + 1)) : ℕ :=
  preds.count c

/-- Percentage `(count / total_samples) * 100`, the per-class figure printed by
`evaluate`. -/
def predPercent {n : ℕ} (preds : List (Fin (n + 1))) (c : Fin (n + 1)) : ℚ :=
  ((labelCounts preds c : ℚ) / (preds.length : ℚ)) * 100

lemma sum_count_eq_length {m : ℕ} (l : List (Fin m)) :
    ∑ c, l.count c = l.length := by
  induction l with
  | nil => simp
  | cons a l ih =>
    have hcnt : ∀ c : Fin m, (a :: l).count c = l.count c + if a = c then 1 else 0 := by
      intro c
      rw [List.count_cons]
      simp
    simp only [hcnt]
    rw [Finset.sum_add_distrib, ih]
    rw [Finset.sum_ite_eq Finset.univ a (fun _ => 1)]
    simp

/-- Claim C8 (on the intended computation): for a non-empty evaluation set,
the per-class percentages — each class's prediction count over the total
sample count, times 100 — sum to exactly 100, since each example's `argmax`
lands in exactly one of the `n + 1` classes. -/
theorem evalPercent_sum_100 {n : ℕ} (logits : List (Fin (n + 1) → ℚ))
    (hne : logits ≠ []) :
    ∑ c, predPercent (evalPreds logits) c = 100 := by
  have hlen : ((evalPreds logits).length : ℚ) ≠ 0 := by
    unfold evalPreds
    rw [List.length_map]
    exact_mod_cast fun h =>
      hne (List.length_eq_zero.1 (by exact_mod_cast h))
  unfold predPercent labelCounts
  rw [← Finset.sum_mul, ← Finset.sum_div]
  rw [show ∑ c, ((evalPreds logits).count c : ℚ) =
      (((evalPreds logits).length : ℕ) : ℚ) from by
    rw [← Nat.cast_sum]
    exact_mod_cast congrArg (Nat.cast : ℕ → ℚ) (sum_count_eq_length (evalPreds logits))]
  rw [div_self hlen, one_mul]

/-- Witness for C8 on a one-example, six-class evaluation set. -/
theorem evalPercent_sum_100_witness :
    ([fun _ => (0 : ℚ)] : List (Fin 6 → ℚ)) ≠ [] ∧
    ∑ c, predPercent (evalPreds ([fun _ => (0 : ℚ)] : List (Fin 6 → ℚ))) c = 100 :=
  ⟨by simp, evalPercent_sum_100 _ (by simp)⟩

end Distill
